import Mathlib

/-
Verification development for the crawl-and-ingest pipeline of the
documentation_qa repository.

Embedded components (shallow embedding over `List Char` strings and `Nat`
indices):
- `DocumentBuilder.split_text` embeds `DocumentBuilder._split_text`
  (src/crawler/crawler.py), together with `pyFind` / `pyRfind`, which embed
  Python's `str.find(sub, a, b)` / `str.rfind(sub, a, b)` semantics
  (first / last occurrence lying entirely inside the half-open window
  `[a, min b len)`).
- `URLExtractor` embeds the frontier crawler of src/crawler/url_extractor.py
  as a sequential work-list state machine (the asyncio workers mutate the
  shared sets without any suspension point between the membership checks and
  the inserts, so one dequeue-and-process step is atomic).
- `SingleCrawler` / `ParallelCrawler` embed the fetch stage of
  src/crawler/crawler.py; the external `crawl4ai` fetch is a parameter of
  type `Url → Except Err PageContent`, and `multiprocessing.Pool.map` is the
  order-preserving map it is documented to be.
-/

namespace DocumentBuilder

/-- Embedding of Python `str.find(sub, a, b)` scanning upward from `a`:
the least position `p ≥ a` whose occurrence of `sub` lies entirely inside
`[a, min b (length text))`, or `none`.  The first `Nat` argument is
structural fuel; `pyFind` passes `b + length text + 1 - a`, which exceeds
the number of candidate positions, so the fuel never runs out. -/
def pyFindFrom (text sub : List Char) (b : Nat) : Nat → Nat → Option Nat
  | 0, _ => none
  | fuel + 1, a =>
    if a + sub.length ≤ b ∧ a + sub.length ≤ text.length then
      if sub.isPrefixOf (text.drop a) then some a
      else pyFindFrom text sub b fuel (a + 1)
    else none

/-- Embedding of Python `text.find(sub, a, b)` (absolute index or `none`). -/
def pyFind (text sub : List Char) (a b : Nat) : Option Nat :=
  pyFindFrom text sub b (b + text.length + 1 - a) a

/-- Downward scan for `pyRfind`, trying positions `p, p-1, ..., a`. -/
def pyRfindAux (text sub : List Char) (a : Nat) : Nat → Option Nat
  | 0 =>
    if a = 0 then
      if sub.isPrefixOf (text.drop 0) then some 0 else none
    else none
  | p + 1 =>
    if a ≤ p + 1 then
      if sub.isPrefixOf (text.drop (p + 1)) then some (p + 1)
      else if a ≤ p then pyRfindAux text sub a p else none
    else none

/-- Embedding of Python `text.rfind(sub, a, b)`: the greatest position of an
occurrence of `sub` lying entirely inside `[a, min b (length text))`. -/
def pyRfind (text sub : List Char) (a b : Nat) : Option Nat :=
  let hi := min b text.length
  if sub.length ≤ hi then pyRfindAux text sub a (hi - sub.length) else none

/-- Embedding of the chunk-end computation of `DocumentBuilder._split_text`
(src/crawler/crawler.py lines 231-253): candidate `start + chunk_size`,
boundary search only when the candidate is strictly inside the text
(paragraph break, then sentence break, then last space), then the final
clamp `end = min(end, len(text))`. -/
def chunkEnd (text : List Char) (chunk_size start : Nat) : Nat :=
  let e := start + chunk_size
  let e2 :=
    if e < text.length then
      match pyFind text ['\n', '\n'] (e - chunk_size / 2) (e + chunk_size / 2) with
      | some paragraph_break => paragraph_break + 2
      | none =>
        match pyFind text ['.', ' '] (e - chunk_size / 4) (e + chunk_size / 4) with
        | some sentence_break => sentence_break + 2
        | none =>
          if e < text.length then
            match pyRfind text [' '] (e - chunk_size / 8) e with
            | some space => space + 1
            | none => e
          else e
    else e
  min e2 text.length

/-- Embedding of the `while start < len(text)` loop of
`DocumentBuilder._split_text` (src/crawler/crawler.py lines 230-272):
emit `text[start:end]`, advance `start = end - chunk_overlap`, forcing
`start = previous_start + 1` when that would not make progress.  The first
`Nat` argument is structural fuel; since `start` strictly increases on every
iteration, `text.length - start` bounds the remaining iteration count and
`split_text` passes `text.length` as fuel, so the fuel never runs out. -/
def split_text_loop (text : List Char) (chunk_size chunk_overlap : Nat) :
    Nat → Nat → List (List Char)
  | 0, _ => []
  | fuel + 1, start =>
    if start < text.length then
      let e := chunkEnd text chunk_size start
      let chunk := (text.drop start).take (e - start)
      let ns := e - chunk_overlap
      let next_start := if ns ≤ start then start + 1 else ns
      chunk :: split_text_loop text chunk_size chunk_overlap fuel next_start
    else []

/-- Embedding of `DocumentBuilder._split_text` (src/crawler/crawler.py
lines 208-272): empty text gives `[]`, text no longer than `chunk_size`
gives a single chunk, otherwise the chunking loop runs from `start = 0`. -/
def split_text (text : List Char) (chunk_size chunk_overlap : Nat) :
    List (List Char) :=
  if text = [] then []
  else if text.length ≤ chunk_size then [text]
  else split_text_loop text chunk_size chunk_overlap text.length 0

/-- Spec-side chunk-end selection following the words of the claim about
boundary priority: the search for a paragraph break, sentence break and
trailing space is performed unconditionally (no `candidate < length` guard),
and the result is clamped to the text length. Used only to compare the
spec's description against the source's `chunkEnd`. -/
def chunkEndClaim (text : List Char) (chunk_size start : Nat) : Nat :=
  let e := start + chunk_size
  let e2 :=
    match pyFind text ['\n', '\n'] (e - chunk_size / 2) (e + chunk_size / 2) with
    | some paragraph_break => paragraph_break + 2
    | none =>
      match pyFind text ['.', ' '] (e - chunk_size / 4) (e + chunk_size / 4) with
      | some sentence_break => sentence_break + 2
      | none =>
        match pyRfind text [' '] (e - chunk_size / 8) e with
        | some space => space + 1
        | none => e
  min e2 text.length

/-- Chunking loop driven by the claim's unguarded chunk-end selection. -/
def split_text_claim_loop (text : List Char) (chunk_size chunk_overlap : Nat) :
    Nat → Nat → List (List Char)
  | 0, _ => []
  | fuel + 1, start =>
    if start < text.length then
      let e := chunkEndClaim text chunk_size start
      let chunk := (text.drop start).take (e - start)
      let ns := e - chunk_overlap
      let next_start := if ns ≤ start then start + 1 else ns
      chunk :: split_text_claim_loop text chunk_size chunk_overlap fuel
        next_start
    else []

/-- Spec-side splitter following the claim's words (unguarded boundary
search), for comparison against the source's `split_text`. -/
def split_text_claim (text : List Char) (chunk_size chunk_overlap : Nat) :
    List (List Char) :=
  if text = [] then []
  else if text.length ≤ chunk_size then [text]
  else split_text_claim_loop text chunk_size chunk_overlap text.length 0

/-- Reassembly described by the chunking-coverage property: keep the first
chunk whole and strip the configured overlap from the start of every later
chunk, then concatenate. -/
def reassemble (chunk_overlap : Nat) (chunks : List (List Char)) : List Char :=
  match chunks with
  | [] => []
  | c :: rest => c ++ (rest.map (fun d => d.drop chunk_overlap)).flatten

end DocumentBuilder

namespace DocumentBuilder

theorem split_text_loop_length_le (text : List Char)
    (chunk_size chunk_overlap : Nat) :
    ∀ fuel start,
      (split_text_loop text chunk_size chunk_overlap fuel start).length ≤
        fuel := by
  intro fuel
  induction fuel with
  | zero =>
    intro start
    simp [split_text_loop]
  | succ fuel ih =>
    intro start
    rw [split_text_loop]
    by_cases h : start < text.length
    · rw [if_pos h]
      simp only [List.length_cons]
      have := ih (if chunkEnd text chunk_size start - chunk_overlap ≤ start
        then start + 1 else chunkEnd text chunk_size start - chunk_overlap)
      omega
    · rw [if_neg h]
      simp

end DocumentBuilder

open DocumentBuilder

/-- Claim C3: the splitter terminates for every input (it is a total
function defined by well-founded recursion on `text.length - start`, with
the forced `start + 1` advance making the measure decrease even when
`chunk_overlap ≥ chunk_size`), and for any text longer than `chunk_size`
it returns a finite, non-empty chunk list (of at most `text.length`
chunks). -/
theorem split_text_nonempty_of_long (text : List Char)
    (chunk_size chunk_overlap : Nat) (h : chunk_size < text.length) :
    split_text text chunk_size chunk_overlap ≠ [] ∧
      (split_text text chunk_size chunk_overlap).length ≤ text.length := by
  have htext : text ≠ [] := by
    intro he
    rw [he] at h
    simp at h
  have hnle : ¬ text.length ≤ chunk_size := by omega
  have h0 : 0 < text.length := by omega
  constructor
  · rw [DocumentBuilder.split_text, if_neg htext, if_neg hnle]
    obtain ⟨m, hm⟩ : ∃ m, text.length = m + 1 := ⟨text.length - 1, by omega⟩
    rw [hm, DocumentBuilder.split_text_loop]
    rw [if_pos (show 0 < text.length by omega)]
    simp
  · rw [DocumentBuilder.split_text, if_neg htext, if_neg hnle]
    exact DocumentBuilder.split_text_loop_length_le text chunk_size
      chunk_overlap text.length 0

/-- Witness for C3 at the spec's example configuration: `chunk_size = 10`,
`chunk_overlap = 50` (overlap ≥ chunk size) on a 15-character text. -/
theorem split_text_nonempty_of_long_witness :
    split_text (List.replicate 15 'a') 10 50 ≠ [] :=
  (split_text_nonempty_of_long (List.replicate 15 'a') 10 50 (by decide)).1

/-- Claim C9: splitting the empty string yields the empty list for every
configuration, and splitting a non-empty text no longer than `chunk_size`
yields exactly one chunk equal to the whole input. -/
theorem split_text_small_inputs (chunk_size chunk_overlap : Nat) :
    split_text [] chunk_size chunk_overlap = [] ∧
      ∀ text : List Char, text ≠ [] → text.length ≤ chunk_size →
        split_text text chunk_size chunk_overlap = [text] := by
  constructor
  · rw [DocumentBuilder.split_text]
    simp
  · intro text hne hle
    rw [DocumentBuilder.split_text]
    simp [hne, hle]

/-- Witness for C9 at the spec's example:
`split("short text", 1000, 200) = ["short text"]`. -/
theorem split_text_small_inputs_witness :
    split_text ("short text".toList) 1000 200 = ["short text".toList] :=
  (split_text_small_inputs 1000 200).2 _ (by decide) (by decide)

namespace DocumentBuilder

/-- Forced progress happens only at the end of the text: whenever the chunk
computed at some position does not extend more than `chunk_overlap` past its
start, that chunk already reaches the end of the text.  The condition is
decidable and fails when the overlap is large relative to the chunk size —
in particular on boundary-free text with `chunk_overlap ≥ chunk_size`, the
configuration of the reassembly counterexample. -/
def TailOnlyForcing (text : List Char) (chunk_size chunk_overlap : Nat) :
    Prop :=
  ∀ s, s < text.length →
    chunkEnd text chunk_size s ≤ s + chunk_overlap →
    chunkEnd text chunk_size s = text.length

theorem chunkEnd_le_length (text : List Char) (chunk_size s : Nat) :
    chunkEnd text chunk_size s ≤ text.length :=
  Nat.min_le_right _ _

theorem split_text_loop_flatten (text : List Char) (cs ov : Nat)
    (H : TailOnlyForcing text cs ov) :
    ∀ fuel start, text.length - start ≤ fuel →
      ((split_text_loop text cs ov fuel start).map
        (fun d => d.drop ov)).flatten = text.drop (start + ov) := by
  intro fuel
  induction fuel with
  | zero =>
    intro start hle
    rw [List.drop_eq_nil_of_le (by omega)]
    rfl
  | succ fuel ih =>
    intro start hle
    rw [split_text_loop]
    by_cases h : start < text.length
    · rw [if_pos h]
      simp only [List.map_cons, List.flatten_cons]
      have hEle := chunkEnd_le_length text cs start
      by_cases hf : chunkEnd text cs start - ov ≤ start
      · rw [if_pos hf]
        have he_len : chunkEnd text cs start = text.length :=
          H start h (by omega)
        have hdrop :
            ((text.drop start).take (chunkEnd text cs start - start)).drop ov
              = [] := by
          apply List.drop_eq_nil_of_le
          rw [List.length_take]
          simp only [List.length_drop]
          omega
        have hrest := ih (start + 1) (by omega)
        rw [hdrop, hrest]
        rw [List.drop_eq_nil_of_le (show text.length ≤ start + 1 + ov by
          omega)]
        rw [List.drop_eq_nil_of_le (show text.length ≤ start + ov by omega)]
        rfl
      · rw [if_neg hf]
        have hIH := ih (chunkEnd text cs start - ov) (by omega)
        rw [hIH]
        have h1 : chunkEnd text cs start - ov + ov = chunkEnd text cs start :=
          by omega
        rw [h1]
        rw [List.drop_take, List.drop_drop]
        have h2 : chunkEnd text cs start - start - ov =
            chunkEnd text cs start - (start + ov) := by omega
        rw [h2]
        have h3 : text.drop (chunkEnd text cs start) =
            (text.drop (start + ov)).drop
              (chunkEnd text cs start - (start + ov)) := by
          rw [List.drop_drop]
          congr 1
          omega
        rw [h3]
        exact List.take_append_drop _ _
    · rw [if_neg h]
      rw [List.drop_eq_nil_of_le (by omega)]
      rfl

instance (text : List Char) (chunk_size chunk_overlap : Nat) :
    Decidable (TailOnlyForcing text chunk_size chunk_overlap) :=
  inferInstanceAs (Decidable (∀ s, s < text.length →
    chunkEnd text chunk_size s ≤ s + chunk_overlap →
    chunkEnd text chunk_size s = text.length))

end DocumentBuilder

/-- Claim C2 (amended): whenever forced progress can only fire on a chunk
that already reaches the end of the text (`TailOnlyForcing`), concatenating
the chunks of `split_text`, after removing the first `chunk_overlap`
characters from the start of every chunk except the first, yields exactly
the original text.  Without that condition characters are dropped (see the
counterexample with `chunk_overlap ≥ chunk_size`). -/
theorem chunk_reassembly_exact (text : List Char) (cs ov : Nat)
    (H : TailOnlyForcing text cs ov) :
    reassemble ov (split_text text cs ov) = text := by
  by_cases h0 : text = []
  · subst h0
    rfl
  · by_cases h1 : text.length ≤ cs
    · rw [DocumentBuilder.split_text, if_neg h0, if_pos h1]
      simp [DocumentBuilder.reassemble]
    · rw [DocumentBuilder.split_text, if_neg h0, if_neg h1]
      obtain ⟨m, hm⟩ : ∃ m, text.length = m + 1 :=
        ⟨text.length - 1, by omega⟩
      rw [hm, DocumentBuilder.split_text_loop,
        if_pos (show 0 < text.length by omega)]
      show (text.drop 0).take (chunkEnd text cs 0 - 0) ++
        ((DocumentBuilder.split_text_loop text cs ov m
          (if chunkEnd text cs 0 - ov ≤ 0 then 0 + 1
           else chunkEnd text cs 0 - ov)).map
          (fun d => d.drop ov)).flatten = text
      have hEle := DocumentBuilder.chunkEnd_le_length text cs 0
      by_cases hf : chunkEnd text cs 0 - ov ≤ 0
      · rw [if_pos hf]
        have he_len : chunkEnd text cs 0 = text.length :=
          H 0 (by omega) (by omega)
        rw [DocumentBuilder.split_text_loop_flatten text cs ov H m (0 + 1)
          (by omega)]
        rw [List.drop_eq_nil_of_le (show text.length ≤ 0 + 1 + ov by omega)]
        simp [he_len]
      · rw [if_neg hf]
        rw [DocumentBuilder.split_text_loop_flatten text cs ov H m
          (chunkEnd text cs 0 - ov) (by omega)]
        have h1 : chunkEnd text cs 0 - ov + ov = chunkEnd text cs 0 := by
          omega
        rw [h1]
        simp only [List.drop_zero, Nat.sub_zero]
        exact List.take_append_drop _ _

/-- Witness for the amended C2: `chunk_size = 5`, `chunk_overlap = 2` on a
12-character text with no natural boundaries satisfies `TailOnlyForcing`,
and reassembly reconstructs the text exactly. -/
theorem chunk_reassembly_exact_witness :
    reassemble 2 (split_text ("abcdefghijkl".toList) 5 2) =
      "abcdefghijkl".toList :=
  chunk_reassembly_exact ("abcdefghijkl".toList) 5 2 (by decide)

/-- Counterexample to C2 as stated: with `chunk_size = 10` and
`chunk_overlap = 50` (the spec's own overlap ≥ chunk-size configuration) on
a 15-character text, trimming 50 characters from the start of every chunk
after the first erases those chunks entirely and reassembly returns only the
first 10 characters, not the original text. -/
theorem chunk_reassembly_fails_large_overlap :
    reassemble 50 (split_text (List.replicate 15 'a') 10 50) ≠
      List.replicate 15 'a' := by
  decide

namespace DocumentBuilder

theorem pyFindFrom_some (text sub : List Char) (b : Nat) :
    ∀ fuel a p, pyFindFrom text sub b fuel a = some p →
      a ≤ p ∧ p + sub.length ≤ b ∧ sub.isPrefixOf (text.drop p) = true ∧
        ∀ q, a ≤ q → q < p → ¬ sub.isPrefixOf (text.drop q) = true := by
  intro fuel
  induction fuel with
  | zero =>
    intro a p hp
    simp [pyFindFrom] at hp
  | succ fuel ih =>
    intro a p hp
    rw [pyFindFrom] at hp
    by_cases hg : a + sub.length ≤ b ∧ a + sub.length ≤ text.length
    · rw [if_pos hg] at hp
      by_cases hm : sub.isPrefixOf (text.drop a) = true
      · rw [if_pos hm] at hp
        obtain rfl : a = p := by simpa using hp
        exact ⟨le_refl a, hg.1, hm, fun q hq1 hq2 => by omega⟩
      · rw [if_neg hm] at hp
        obtain ⟨h1, h2, h3, h4⟩ := ih (a + 1) p hp
        refine ⟨by omega, h2, h3, fun q hq1 hq2 => ?_⟩
        rcases Nat.eq_or_lt_of_le hq1 with rfl | hlt
        · exact hm
        · exact h4 q hlt hq2
    · rw [if_neg hg] at hp
      simp at hp

theorem pyFindFrom_none (text sub : List Char) (b : Nat) :
    ∀ fuel a, b + text.length + 1 - a ≤ fuel →
      pyFindFrom text sub b fuel a = none →
      ∀ q, a ≤ q → q + sub.length ≤ b → q + sub.length ≤ text.length →
        ¬ sub.isPrefixOf (text.drop q) = true := by
  intro fuel
  induction fuel with
  | zero =>
    intro a hfuel _ q hq1 hq2 _ _
    omega
  | succ fuel ih =>
    intro a hfuel hnone q hq1 hq2 hq3
    rw [pyFindFrom] at hnone
    by_cases hg : a + sub.length ≤ b ∧ a + sub.length ≤ text.length
    · rw [if_pos hg] at hnone
      by_cases hm : sub.isPrefixOf (text.drop a) = true
      · rw [if_pos hm] at hnone
        simp at hnone
      · rw [if_neg hm] at hnone
        rcases Nat.eq_or_lt_of_le hq1 with rfl | hlt
        · exact hm
        · exact ih (a + 1) (by omega) hnone q hlt hq2 hq3
    · rw [if_neg hg] at hnone
      intro _
      exact hg ⟨by omega, by omega⟩

theorem pyFind_some (text sub : List Char) (a b p : Nat)
    (h : pyFind text sub a b = some p) :
    a ≤ p ∧ p + sub.length ≤ b ∧ sub.isPrefixOf (text.drop p) = true ∧
      ∀ q, a ≤ q → q < p → ¬ sub.isPrefixOf (text.drop q) = true :=
  pyFindFrom_some text sub b _ a p h

theorem pyFind_none (text sub : List Char) (a b : Nat)
    (h : pyFind text sub a b = none) :
    ∀ q, a ≤ q → q + sub.length ≤ b → q + sub.length ≤ text.length →
      ¬ sub.isPrefixOf (text.drop q) = true :=
  pyFindFrom_none text sub b _ a (le_refl _) h

theorem pyRfindAux_some (text sub : List Char) (a : Nat) :
    ∀ p r, pyRfindAux text sub a p = some r →
      a ≤ r ∧ r ≤ p ∧ sub.isPrefixOf (text.drop r) = true ∧
        ∀ q, r < q → q ≤ p → ¬ sub.isPrefixOf (text.drop q) = true := by
  intro p
  induction p with
  | zero =>
    intro r hr
    rw [pyRfindAux] at hr
    by_cases ha : a = 0
    · rw [if_pos ha] at hr
      by_cases hm : sub.isPrefixOf (text.drop 0) = true
      · rw [if_pos hm] at hr
        obtain rfl : (0 : Nat) = r := by simpa using hr
        exact ⟨by omega, le_refl 0, hm, fun q hq1 hq2 => by omega⟩
      · rw [if_neg hm] at hr
        simp at hr
    · rw [if_neg ha] at hr
      simp at hr
  | succ p ih =>
    intro r hr
    rw [pyRfindAux] at hr
    by_cases ha : a ≤ p + 1
    · rw [if_pos ha] at hr
      by_cases hm : sub.isPrefixOf (text.drop (p + 1)) = true
      · rw [if_pos hm] at hr
        obtain rfl : p + 1 = r := by simpa using hr
        exact ⟨ha, le_refl _, hm, fun q hq1 hq2 => by omega⟩
      · rw [if_neg hm] at hr
        by_cases ha2 : a ≤ p
        · rw [if_pos ha2] at hr
          obtain ⟨h1, h2, h3, h4⟩ := ih r hr
          refine ⟨h1, by omega, h3, fun q hq1 hq2 => ?_⟩
          rcases Nat.eq_or_lt_of_le hq2 with rfl | hlt
          · exact hm
          · exact h4 q hq1 (by omega)
        · rw [if_neg ha2] at hr
          simp at hr
    · rw [if_neg ha] at hr
      simp at hr

theorem pyRfindAux_none (text sub : List Char) (a : Nat) :
    ∀ p, pyRfindAux text sub a p = none →
      ∀ q, a ≤ q → q ≤ p → ¬ sub.isPrefixOf (text.drop q) = true := by
  intro p
  induction p with
  | zero =>
    intro hr q hq1 hq2
    rw [pyRfindAux] at hr
    obtain rfl : q = 0 := by omega
    have ha : a = 0 := by omega
    rw [if_pos ha] at hr
    by_cases hm : sub.isPrefixOf (text.drop 0) = true
    · rw [if_pos hm] at hr
      simp at hr
    · exact fun hc => hm hc
  | succ p ih =>
    intro hr q hq1 hq2
    rw [pyRfindAux] at hr
    by_cases ha : a ≤ p + 1
    · rw [if_pos ha] at hr
      by_cases hm : sub.isPrefixOf (text.drop (p + 1)) = true
      · rw [if_pos hm] at hr
        simp at hr
      · rw [if_neg hm] at hr
        rcases Nat.eq_or_lt_of_le hq2 with rfl | hlt
        · exact hm
        · by_cases ha2 : a ≤ p
          · rw [if_pos ha2] at hr
            exact ih hr q hq1 (by omega)
          · omega
    · omega

theorem pyRfind_some (text sub : List Char) (a b r : Nat)
    (h : pyRfind text sub a b = some r) :
    a ≤ r ∧ r + sub.length ≤ min b text.length ∧
      sub.isPrefixOf (text.drop r) = true ∧
      ∀ q, r < q → q + sub.length ≤ min b text.length →
        ¬ sub.isPrefixOf (text.drop q) = true := by
  rw [pyRfind] at h
  by_cases hg : sub.length ≤ min b text.length
  · rw [if_pos hg] at h
    obtain ⟨h1, h2, h3, h4⟩ := pyRfindAux_some text sub a _ r h
    exact ⟨h1, by omega, h3, fun q hq1 hq2 => h4 q hq1 (by omega)⟩
  · rw [if_neg hg] at h
    simp at h

theorem pyRfind_none (text sub : List Char) (a b : Nat)
    (h : pyRfind text sub a b = none) :
    ∀ q, a ≤ q → q + sub.length ≤ min b text.length →
      ¬ sub.isPrefixOf (text.drop q) = true := by
  rw [pyRfind] at h
  by_cases hg : sub.length ≤ min b text.length
  · rw [if_pos hg] at h
    intro q hq1 hq2
    exact pyRfindAux_none text sub a _ h q hq1 (by omega)
  · intro q hq1 hq2
    omega

/-- Position of a paragraph break eligible for the boundary search at
candidate end `start + chunk_size`: the double newline lies inside the
half-open search window of radius `chunk_size / 2` around the candidate. -/
def paraCand (text : List Char) (chunk_size start p : Nat) : Prop :=
  start + chunk_size - chunk_size / 2 ≤ p ∧
    p + 2 ≤ start + chunk_size + chunk_size / 2 ∧
    (['\n', '\n'] : List Char).isPrefixOf (text.drop p) = true

/-- Position of a sentence break (period and space) eligible for the
boundary search: inside the window of radius `chunk_size / 4` around the
candidate end. -/
def sentCand (text : List Char) (chunk_size start p : Nat) : Prop :=
  start + chunk_size - chunk_size / 4 ≤ p ∧
    p + 2 ≤ start + chunk_size + chunk_size / 4 ∧
    (['.', ' '] : List Char).isPrefixOf (text.drop p) = true

/-- Position of a space eligible for the backward-only boundary search:
inside the last `chunk_size / 8` characters before the candidate end. -/
def spaceCand (text : List Char) (chunk_size start p : Nat) : Prop :=
  start + chunk_size - chunk_size / 8 ≤ p ∧ p + 1 ≤ start + chunk_size ∧
    ([' '] : List Char).isPrefixOf (text.drop p) = true

theorem prefix_drop_le {sub text : List Char} {p : Nat}
    (h : sub.isPrefixOf (text.drop p) = true) :
    sub.length ≤ text.length - p := by
  have hl := (List.isPrefixOf_iff_prefix.mp h).length_le
  rwa [List.length_drop] at hl

end DocumentBuilder

/-- Claim C8 (amended): the boundary search runs only when the candidate
position `start + chunk_size` is strictly inside the text; in that case the
chunk end is, in priority order, the earliest eligible paragraph break plus
its two-character separator, else the earliest eligible sentence break plus
its two-character separator, else the latest eligible space plus one, else
the raw candidate.  When the candidate reaches or passes the end of the
text, no search happens and the end is the text length (the claim's
unconditional search disagrees with the code there, see the
counterexample). -/
theorem chunk_end_priority (text : List Char) (cs start : Nat) :
    (text.length ≤ start + cs → chunkEnd text cs start = text.length) ∧
    (start + cs < text.length →
      ((∃ p, paraCand text cs start p) →
        ∃ p, paraCand text cs start p ∧
          (∀ q, paraCand text cs start q → p ≤ q) ∧
          chunkEnd text cs start = p + 2) ∧
      ((¬ ∃ p, paraCand text cs start p) →
        (∃ p, sentCand text cs start p) →
        ∃ p, sentCand text cs start p ∧
          (∀ q, sentCand text cs start q → p ≤ q) ∧
          chunkEnd text cs start = p + 2) ∧
      ((¬ ∃ p, paraCand text cs start p) →
        (¬ ∃ p, sentCand text cs start p) →
        (∃ p, spaceCand text cs start p) →
        ∃ p, spaceCand text cs start p ∧
          (∀ q, spaceCand text cs start q → q ≤ p) ∧
          chunkEnd text cs start = p + 1) ∧
      ((¬ ∃ p, paraCand text cs start p) →
        (¬ ∃ p, sentCand text cs start p) →
        (¬ ∃ p, spaceCand text cs start p) →
        chunkEnd text cs start = start + cs)) := by
  constructor
  · intro h
    simp only [DocumentBuilder.chunkEnd]
    rw [if_neg (show ¬ start + cs < text.length by omega)]
    omega
  · intro h
    rcases hpf : pyFind text ['\n', '\n'] (start + cs - cs / 2)
        (start + cs + cs / 2) with _ | p
    · have hnopara : ¬ ∃ q, paraCand text cs start q := by
        rintro ⟨q, hq1, hq2, hq3⟩
        have hql := DocumentBuilder.prefix_drop_le hq3
        simp only [List.length_cons, List.length_nil] at hql
        refine DocumentBuilder.pyFind_none text _ _ _ hpf q hq1 ?_ ?_ hq3
        · simp only [List.length_cons, List.length_nil]
          omega
        · simp only [List.length_cons, List.length_nil]
          omega
      rcases hsf : pyFind text ['.', ' '] (start + cs - cs / 4)
          (start + cs + cs / 4) with _ | p
      · have hnosent : ¬ ∃ q, sentCand text cs start q := by
          rintro ⟨q, hq1, hq2, hq3⟩
          have hql := DocumentBuilder.prefix_drop_le hq3
          simp only [List.length_cons, List.length_nil] at hql
          refine DocumentBuilder.pyFind_none text _ _ _ hsf q hq1 ?_ ?_ hq3
          · simp only [List.length_cons, List.length_nil]
            omega
          · simp only [List.length_cons, List.length_nil]
            omega
        rcases hrf : pyRfind text [' '] (start + cs - cs / 8)
            (start + cs) with _ | r
        · have hnospace : ¬ ∃ q, spaceCand text cs start q := by
            rintro ⟨q, hq1, hq2, hq3⟩
            have hql := DocumentBuilder.prefix_drop_le hq3
            simp only [List.length_cons, List.length_nil] at hql
            refine DocumentBuilder.pyRfind_none text _ _ _ hrf q hq1 ?_ hq3
            simp only [List.length_cons, List.length_nil]
            omega
          have hce : chunkEnd text cs start = min (start + cs) text.length :=
            by
            simp only [DocumentBuilder.chunkEnd]
            rw [if_pos h, hpf, hsf, if_pos h, hrf]
          refine ⟨fun hex => absurd hex hnopara,
            fun _ hex => absurd hex hnosent,
            fun _ _ hex => absurd hex hnospace,
            fun _ _ _ => ?_⟩
          rw [hce]
          omega
        · obtain ⟨ha, hb, hm, hgreat⟩ :=
            DocumentBuilder.pyRfind_some text _ _ _ _ hrf
          simp only [List.length_cons, List.length_nil] at hb
          have hrlen := DocumentBuilder.prefix_drop_le hm
          simp only [List.length_cons, List.length_nil] at hrlen
          have hce : chunkEnd text cs start = min (r + 1) text.length := by
            simp only [DocumentBuilder.chunkEnd]
            rw [if_pos h, hpf, hsf, if_pos h, hrf]
          have hspace : spaceCand text cs start r := ⟨ha, by omega, hm⟩
          refine ⟨fun hex => absurd hex hnopara,
            fun _ hex => absurd hex hnosent,
            fun _ _ _ => ⟨r, hspace, ?_, ?_⟩,
            fun _ _ hnex => absurd ⟨r, hspace⟩ hnex⟩
          · intro q hq
            rcases hq with ⟨hq1, hq2, hq3⟩
            by_contra hc
            push_neg at hc
            have hqlen := DocumentBuilder.prefix_drop_le hq3
            simp only [List.length_cons, List.length_nil] at hqlen
            refine hgreat q hc ?_ hq3
            simp only [List.length_cons, List.length_nil]
            omega
          · rw [hce]
            omega
      · obtain ⟨ha, hb, hm, hleast⟩ :=
          DocumentBuilder.pyFind_some text _ _ _ _ hsf
        simp only [List.length_cons, List.length_nil] at hb
        have hplen := DocumentBuilder.prefix_drop_le hm
        simp only [List.length_cons, List.length_nil] at hplen
        have hce : chunkEnd text cs start = min (p + 2) text.length := by
          simp only [DocumentBuilder.chunkEnd]
          rw [if_pos h, hpf, hsf]
        have hsent : sentCand text cs start p := ⟨ha, by omega, hm⟩
        refine ⟨fun hex => absurd hex hnopara,
          fun _ _ => ⟨p, hsent, ?_, ?_⟩,
          fun _ hnex _ => absurd ⟨p, hsent⟩ hnex,
          fun _ hnex _ => absurd ⟨p, hsent⟩ hnex⟩
        · intro q hq
          rcases hq with ⟨hq1, hq2, hq3⟩
          by_contra hc
          push_neg at hc
          exact hleast q hq1 hc hq3
        · rw [hce]
          omega
    · obtain ⟨ha, hb, hm, hleast⟩ :=
        DocumentBuilder.pyFind_some text _ _ _ _ hpf
      simp only [List.length_cons, List.length_nil] at hb
      have hplen := DocumentBuilder.prefix_drop_le hm
      simp only [List.length_cons, List.length_nil] at hplen
      have hce : chunkEnd text cs start = min (p + 2) text.length := by
        simp only [DocumentBuilder.chunkEnd]
        rw [if_pos h, hpf]
      have hpara : paraCand text cs start p := ⟨ha, by omega, hm⟩
      refine ⟨fun _ => ⟨p, hpara, ?_, ?_⟩,
        fun hnex _ => absurd ⟨p, hpara⟩ hnex,
        fun hnex _ _ => absurd ⟨p, hpara⟩ hnex,
        fun hnex _ _ => absurd ⟨p, hpara⟩ hnex⟩
      · intro q hq
        rcases hq with ⟨hq1, hq2, hq3⟩
        by_contra hc
        push_neg at hc
        exact hleast q hq1 hc hq3
      · rw [hce]
        omega

/-- Witness for the amended C8: on a 15-character text with a paragraph
break at position 5, `chunk_size = 8` and `start = 0`, the chunk end is the
least eligible paragraph break plus two. -/
theorem chunk_end_priority_witness :
    ∃ p, paraCand ("abcde\n\nfghijklm".toList) 8 0 p ∧
      (∀ q, paraCand ("abcde\n\nfghijklm".toList) 8 0 q → p ≤ q) ∧
      chunkEnd ("abcde\n\nfghijklm".toList) 8 0 = p + 2 :=
  ((chunk_end_priority ("abcde\n\nfghijklm".toList) 8 0).2 (by decide)).1
    ⟨5, by decide, by decide, by decide⟩

/-- Counterexample to C8 as stated: the claim's priority search with no
candidate-inside-text guard disagrees with the code on a 20-character text
whose paragraph break sits just past the final chunk's candidate end — the
code emits two chunks, the claim's rule three. -/
theorem chunk_end_guard_divergence :
    split_text (List.replicate 17 'a' ++ ['\n', '\n', 'a']) 10 0 ≠
      split_text_claim (List.replicate 17 'a' ++ ['\n', '\n', 'a']) 10 0 := by
  decide

namespace URLExtractor

/-- URLs are embedded as character lists. -/
abbrev Url := List Char

/-- Embedding of Python `str.lower()`. -/
def lower (s : Url) : Url := s.map Char.toLower

/-- Embedding of the Python substring test `sub in s`. -/
def containsSub (sub s : List Char) : Bool :=
  match s with
  | [] => sub.isEmpty
  | _ :: rest => sub.isPrefixOf s || containsSub sub rest

/-- Embedding of the documentation filter `'doc' in link.lower()`
(src/crawler/url_extractor.py line 98). -/
def hasDoc (u : Url) : Bool := containsSub ['d', 'o', 'c'] (lower u)

/-- Python `set.add`: lists used as sets, with insert-if-absent. -/
def addSet (s : List Url) (u : Url) : List Url :=
  if u ∈ s then s else s ++ [u]

/-- State of one extraction run of `URLExtractor`
(src/crawler/url_extractor.py): the three shared sets, the FIFO work queue
of `(url, depth)` jobs, plus two history fields that record observable
events — every URL ever put on the queue (`enqueued_history`, with
multiplicity, for the at-most-once-enqueue property) and every job a worker
actually processed past the visited check (`processed`, for the depth-bound
property). -/
structure CrawlState where
  doc_urls : List Url
  visited_urls : List Url
  queued_urls : List Url
  queue : List (Url × Nat)
  enqueued_history : List Url
  processed : List (Url × Nat)

/-- Embedding of the link loop of `URLExtractor._worker`
(src/crawler/url_extractor.py lines 87-104): skip empty links, normalise
(`urlparse`/`urljoin` are external — `norm` is their denotation, applied to
the current page URL and the raw link), add doc-matching links to
`doc_urls`, and enqueue unseen links when `depth < max_depth`. -/
def processLinks (max_depth : Nat) (norm : Url → Url → Url) (url : Url)
    (depth : Nat) (links : List Url) (st : CrawlState) : CrawlState :=
  links.foldl (fun st link =>
    if link = [] then st
    else
      let nl := norm url link
      let st1 := if hasDoc nl then
          { st with doc_urls := addSet st.doc_urls nl } else st
      if depth < max_depth ∧ nl ∉ st1.visited_urls ∧ nl ∉ st1.queued_urls
      then
        { st1 with queue := st1.queue ++ [(nl, depth + 1)],
                   queued_urls := addSet st1.queued_urls nl,
                   enqueued_history := st1.enqueued_history ++ [nl] }
      else st1) st

/-- Embedding of one iteration of `URLExtractor._worker`
(src/crawler/url_extractor.py lines 70-111): dequeue a job, skip it if
already visited, otherwise mark it visited, fetch its links (`links_of` is
the denotation of `_fetch_links`; a fetch error is a caught exception
yielding `[]`, hence just some value of `links_of`) and process them.
Between the dequeue and the end of the link loop the worker touches the
shared sets with no intervening `await` suspension point except the fetch
itself, which happens before the link loop reads or writes any set except
`visited`, so the whole iteration is one atomic step of the cooperative
scheduler. -/
def worker_step (max_depth : Nat) (norm : Url → Url → Url)
    (links_of : Url → List Url) (st : CrawlState) : CrawlState :=
  match st.queue with
  | [] => st
  | (url, depth) :: rest =>
    if url ∈ st.visited_urls then { st with queue := rest }
    else
      let st1 := { st with visited_urls := addSet st.visited_urls url,
                           queue := rest,
                           processed := st.processed ++ [(url, depth)] }
      processLinks max_depth norm url depth (links_of url) st1

/-- Initial state of `URLExtractor.extract_doc_urls`
(src/crawler/url_extractor.py lines 38-46): fresh empty sets, the seed
enqueued at depth 1 and added to `queued_urls`. -/
def initState (base_url : Url) : CrawlState :=
  { doc_urls := [], visited_urls := [], queued_urls := [base_url],
    queue := [(base_url, 1)], enqueued_history := [base_url],
    processed := [] }

/-- Iterated worker steps.  The real run drains the queue to emptiness
(`queue.join`); `worker_step` is the identity on an empty queue, so every
property proved for all fuel values covers the drained fixpoint. -/
def runCrawl (max_depth : Nat) (norm : Url → Url → Url)
    (links_of : Url → List Url) : Nat → CrawlState → CrawlState
  | 0, st => st
  | fuel + 1, st =>
    runCrawl max_depth norm links_of fuel (worker_step max_depth norm
      links_of st)

/-- Embedding of `URLExtractor.extract_doc_urls`: run the workers from the
seeded state and return the accumulated documentation URLs. -/
def extract_doc_urls (max_depth : Nat) (norm : Url → Url → Url)
    (links_of : Url → List Url) (base_url : Url) (fuel : Nat) : List Url :=
  (runCrawl max_depth norm links_of fuel (initState base_url)).doc_urls

/-- Frontier invariant: doc URLs all match the filter, visited and queued
jobs are registered in the queued set, job depths are bounded by
`max 1 max_depth` (the seed enters at depth 1 regardless of `max_depth`),
the enqueue history has no duplicates and mirrors the queued set. -/
def Inv (max_depth : Nat) (st : CrawlState) : Prop :=
  (∀ u ∈ st.doc_urls, hasDoc u = true) ∧
  (∀ u ∈ st.visited_urls, u ∈ st.queued_urls) ∧
  (∀ j ∈ st.queue, j.1 ∈ st.queued_urls ∧ j.2 ≤ max 1 max_depth) ∧
  (∀ j ∈ st.processed, j.2 ≤ max 1 max_depth) ∧
  st.enqueued_history.Nodup ∧
  (∀ u, u ∈ st.queued_urls ↔ u ∈ st.enqueued_history)

theorem foldl_preserve {α σ : Type} (P : σ → Prop) (f : σ → α → σ)
    (hstep : ∀ s a, P s → P (f s a)) :
    ∀ (l : List α) (s : σ), P s → P (l.foldl f s) := by
  intro l
  induction l with
  | nil => intro s hs; exact hs
  | cons a l ih => intro s hs; exact ih (f s a) (hstep s a hs)

theorem mem_addSet_self (s : List Url) (u : Url) : u ∈ addSet s u := by
  rw [addSet]
  by_cases h : u ∈ s
  · rwa [if_pos h]
  · rw [if_neg h]
    simp

theorem mem_addSet_of_mem (s : List Url) (u v : Url) (h : v ∈ s) :
    v ∈ addSet s u := by
  rw [addSet]
  by_cases hu : u ∈ s
  · rwa [if_pos hu]
  · rw [if_neg hu]
    simp [h]

theorem mem_addSet_iff (s : List Url) (u v : Url) :
    v ∈ addSet s u ↔ v ∈ s ∨ v = u := by
  rw [addSet]
  by_cases hu : u ∈ s
  · rw [if_pos hu]
    constructor
    · exact fun h => Or.inl h
    · rintro (h | rfl)
      · exact h
      · exact hu
  · rw [if_neg hu]
    simp

theorem Inv_docAdd {max_depth : Nat} {s : CrawlState} {nl : Url}
    (hs : Inv max_depth s) (hd : hasDoc nl = true) :
    Inv max_depth { s with doc_urls := addSet s.doc_urls nl } := by
  obtain ⟨hdoc, hvis, hque, hproc, hnd, hiff⟩ := hs
  refine ⟨?_, hvis, hque, hproc, hnd, hiff⟩
  intro u hu
  rcases (mem_addSet_iff s.doc_urls nl u).mp hu with h | rfl
  · exact hdoc u h
  · exact hd

theorem Inv_enqueue {max_depth : Nat} {s : CrawlState} {nl : Url}
    {depth : Nat} (hs : Inv max_depth s) (hdep : depth < max_depth)
    (hnq : nl ∉ s.queued_urls) :
    Inv max_depth
      { s with queue := s.queue ++ [(nl, depth + 1)],
               queued_urls := addSet s.queued_urls nl,
               enqueued_history := s.enqueued_history ++ [nl] } := by
  obtain ⟨hdoc, hvis, hque, hproc, hnd, hiff⟩ := hs
  refine ⟨hdoc, ?_, ?_, hproc, ?_, ?_⟩
  · intro u hu
    exact mem_addSet_of_mem _ _ _ (hvis u hu)
  · intro j hj
    rcases List.mem_append.mp hj with h | h
    · obtain ⟨h1, h2⟩ := hque j h
      exact ⟨mem_addSet_of_mem _ _ _ h1, h2⟩
    · simp only [List.mem_singleton] at h
      subst h
      exact ⟨mem_addSet_self _ _, by simp; omega⟩
  · rw [List.nodup_append]
    refine ⟨hnd, by simp, ?_⟩
    intro x hx hxa
    simp only [List.mem_singleton] at hxa
    subst hxa
    exact hnq ((hiff x).mpr hx)
  · intro u
    rw [mem_addSet_iff, List.mem_append, List.mem_singleton, hiff u]

theorem processLinks_inv (max_depth : Nat) (norm : Url → Url → Url)
    (url : Url) (depth : Nat) (links : List Url) (st : CrawlState)
    (hInv : Inv max_depth st) :
    Inv max_depth (processLinks max_depth norm url depth links st) := by
  rw [processLinks]
  refine foldl_preserve (Inv max_depth) _ ?_ links st hInv
  intro s l hs
  by_cases hl : l = []
  · simpa only [if_pos hl] using hs
  · simp only [if_neg hl]
    by_cases hd : hasDoc (norm url l) = true
    · simp only [if_pos hd]
      have hs1 := Inv_docAdd hs hd
      split
      · rename_i hcond
        exact Inv_enqueue hs1 hcond.1 hcond.2.2
      · exact hs1
    · simp only [if_neg hd]
      split
      · rename_i hcond
        exact Inv_enqueue hs hcond.1 hcond.2.2
      · exact hs

theorem worker_step_inv (max_depth : Nat) (norm : Url → Url → Url)
    (links_of : Url → List Url) (st : CrawlState)
    (hInv : Inv max_depth st) :
    Inv max_depth (worker_step max_depth norm links_of st) := by
  obtain ⟨hdoc, hvis, hque, hproc, hnd, hiff⟩ := hInv
  rcases hq : st.queue with _ | ⟨⟨url, depth⟩, rest⟩
  · have hid : worker_step max_depth norm links_of st = st := by
      rw [worker_step, hq]
    rw [hid]
    exact ⟨hdoc, hvis, hque, hproc, hnd, hiff⟩
  · have hstep : worker_step max_depth norm links_of st =
        if url ∈ st.visited_urls then { st with queue := rest }
        else processLinks max_depth norm url depth (links_of url)
          { st with visited_urls := addSet st.visited_urls url,
                    queue := rest,
                    processed := st.processed ++ [(url, depth)] } := by
      rw [worker_step, hq]
    rw [hstep]
    have hhead := hque (url, depth) (by rw [hq]; simp)
    have hrest : ∀ j ∈ rest, j.1 ∈ st.queued_urls ∧ j.2 ≤ max 1 max_depth :=
      fun j hj => hque j (by rw [hq]; simp [hj])
    by_cases hv : url ∈ st.visited_urls
    · rw [if_pos hv]
      exact ⟨hdoc, hvis, hrest, hproc, hnd, hiff⟩
    · rw [if_neg hv]
      apply processLinks_inv
      refine ⟨hdoc, ?_, hrest, ?_, hnd, hiff⟩
      · intro u hu
        rcases (mem_addSet_iff st.visited_urls url u).mp hu with h | rfl
        · exact hvis u h
        · exact hhead.1
      · intro j hj
        rcases List.mem_append.mp hj with h | h
        · exact hproc j h
        · simp only [List.mem_singleton] at h
          subst h
          exact hhead.2

theorem runCrawl_inv (max_depth : Nat) (norm : Url → Url → Url)
    (links_of : Url → List Url) :
    ∀ fuel st, Inv max_depth st →
      Inv max_depth (runCrawl max_depth norm links_of fuel st) := by
  intro fuel
  induction fuel with
  | zero => intro st hst; exact hst
  | succ fuel ih =>
    intro st hst
    exact ih _ (worker_step_inv max_depth norm links_of st hst)

theorem Inv_init (max_depth : Nat) (base_url : Url) :
    Inv max_depth (initState base_url) := by
  refine ⟨?_, ?_, ?_, ?_, ?_, ?_⟩
  · intro u hu
    simp [initState] at hu
  · intro u hu
    simp [initState] at hu
  · intro j hj
    simp [initState] at hj
    subst hj
    exact ⟨by simp [initState], by simp⟩
  · intro j hj
    simp [initState] at hj
  · simp [initState]
  · intro u
    simp [initState]

theorem doc_urls_mono_processLinks (max_depth : Nat)
    (norm : Url → Url → Url) (url : Url) (depth : Nat) (links : List Url) :
    ∀ (s : CrawlState) (u : Url), u ∈ s.doc_urls →
      u ∈ (processLinks max_depth norm url depth links s).doc_urls := by
  intro s u hu
  rw [processLinks]
  refine foldl_preserve (fun s2 => u ∈ s2.doc_urls) _ ?_ links s hu
  intro s2 l hs2
  by_cases hl : l = []
  · simpa only [if_pos hl] using hs2
  · simp only [if_neg hl]
    by_cases hd : hasDoc (norm url l) = true
    · simp only [if_pos hd]
      split
      · exact mem_addSet_of_mem _ _ _ hs2
      · exact mem_addSet_of_mem _ _ _ hs2
    · simp only [if_neg hd]
      split
      · exact hs2
      · exact hs2

theorem processLinks_processed (max_depth : Nat) (norm : Url → Url → Url)
    (url : Url) (depth : Nat) :
    ∀ (links : List Url) (s : CrawlState),
      (processLinks max_depth norm url depth links s).processed =
        s.processed := by
  intro links
  induction links with
  | nil =>
    intro s
    rfl
  | cons a links ih =>
    intro s
    rw [processLinks, List.foldl_cons, ← processLinks, ih]
    by_cases hl : a = []
    · simp only [if_pos hl]
    · simp only [if_neg hl]
      by_cases hd : hasDoc (norm url a) = true
      · simp only [if_pos hd]
        split
        · rfl
        · rfl
      · simp only [if_neg hd]
        split
        · rfl
        · rfl

theorem processLinks_adds (max_depth : Nat) (norm : Url → Url → Url)
    (url : Url) (depth : Nat) :
    ∀ (links : List Url) (s : CrawlState) (l : Url), l ∈ links → l ≠ [] →
      hasDoc (norm url l) = true →
      norm url l ∈
        (processLinks max_depth norm url depth links s).doc_urls := by
  intro links
  induction links with
  | nil =>
    intro s l hl _ _
    simp at hl
  | cons a links ih =>
    intro s l hl hne hdo
    rw [processLinks, List.foldl_cons, ← processLinks]
    rcases List.mem_cons.mp hl with rfl | hmem
    · apply doc_urls_mono_processLinks
      show norm url l ∈
        (if l = [] then s
         else
           let nl := norm url l
           let st1 := if hasDoc nl = true then
               { s with doc_urls := addSet s.doc_urls nl } else s
           if depth < max_depth ∧ nl ∉ st1.visited_urls ∧
               nl ∉ st1.queued_urls then
             { st1 with queue := st1.queue ++ [(nl, depth + 1)],
                        queued_urls := addSet st1.queued_urls nl,
                        enqueued_history := st1.enqueued_history ++ [nl] }
           else st1).doc_urls
      simp only [if_neg hne, if_pos hdo]
      split
      · exact mem_addSet_self _ _
      · exact mem_addSet_self _ _
    · exact ih _ l hmem hne hdo

/-- Completeness of the documentation filter relative to the processed
pages: every non-empty link extracted from a processed page whose
normalised form matches the filter is in the accumulated doc set. -/
def DocComplete (norm : Url → Url → Url) (links_of : Url → List Url)
    (st : CrawlState) : Prop :=
  ∀ j ∈ st.processed, ∀ l ∈ links_of j.1, l ≠ [] →
    hasDoc (norm j.1 l) = true → norm j.1 l ∈ st.doc_urls

theorem worker_step_docComplete (max_depth : Nat) (norm : Url → Url → Url)
    (links_of : Url → List Url) (st : CrawlState)
    (h : DocComplete norm links_of st) :
    DocComplete norm links_of (worker_step max_depth norm links_of st) := by
  rcases hq : st.queue with _ | ⟨⟨url, depth⟩, rest⟩
  · have hid : worker_step max_depth norm links_of st = st := by
      rw [worker_step, hq]
    rw [hid]
    exact h
  · have hstep : worker_step max_depth norm links_of st =
        if url ∈ st.visited_urls then { st with queue := rest }
        else processLinks max_depth norm url depth (links_of url)
          { st with visited_urls := addSet st.visited_urls url,
                    queue := rest,
                    processed := st.processed ++ [(url, depth)] } := by
      rw [worker_step, hq]
    rw [hstep]
    by_cases hv : url ∈ st.visited_urls
    · rw [if_pos hv]
      exact h
    · rw [if_neg hv]
      intro j hj l hl hne hdo
      rw [processLinks_processed] at hj
      rcases List.mem_append.mp hj with hold | hnew
      · exact doc_urls_mono_processLinks _ _ _ _ _ _ _ (h j hold l hl hne
          hdo)
      · simp only [List.mem_singleton] at hnew
        subst hnew
        exact processLinks_adds _ _ _ _ _ _ l hl hne hdo

theorem runCrawl_docComplete (max_depth : Nat) (norm : Url → Url → Url)
    (links_of : Url → List Url) :
    ∀ fuel st, DocComplete norm links_of st →
      DocComplete norm links_of
        (runCrawl max_depth norm links_of fuel st) := by
  intro fuel
  induction fuel with
  | zero => intro st hst; exact hst
  | succ fuel ih =>
    intro st hst
    exact ih _ (worker_step_docComplete max_depth norm links_of st hst)

end URLExtractor

open URLExtractor

/-- Claim C1 (amended): every URL in the returned documentation set has
"doc" in its lowercase form, and every non-empty link of a processed page
whose normalised form matches the filter ends up in the returned set.  The
seed URL itself is never doc-checked, so it is in the result only when some
crawled page links to it (see the counterexample). -/
theorem docfilter_sound (max_depth : Nat) (norm : Url → Url → Url)
    (links_of : Url → List Url) (base_url : Url) (fuel : Nat) :
    (∀ u ∈ extract_doc_urls max_depth norm links_of base_url fuel,
      hasDoc u = true) ∧
    (∀ j ∈ (runCrawl max_depth norm links_of fuel
        (initState base_url)).processed,
      ∀ l ∈ links_of j.1, l ≠ [] → hasDoc (norm j.1 l) = true →
        norm j.1 l ∈ extract_doc_urls max_depth norm links_of base_url
          fuel) := by
  constructor
  · intro u hu
    exact (runCrawl_inv max_depth norm links_of fuel (initState base_url)
      (Inv_init max_depth base_url)).1 u hu
  · intro j hj l hl hne hdo
    exact runCrawl_docComplete max_depth norm links_of fuel
      (initState base_url) (by intro j hj; simp [initState] at hj) j hj l hl
      hne hdo

/-- Witness for the amended C1: a crawl of a seed whose only link is
`"https://x.com/docs/a"` returns that link, which the theorem certifies to
match the filter, and the completeness half puts the processed seed's doc
link in the result. -/
theorem docfilter_sound_witness :
    hasDoc ("https://x.com/docs/a".toList) = true ∧
      ("https://x.com/docs/a".toList) ∈
        extract_doc_urls 3 (fun _ l => l)
          (fun u => if u = "https://x.com".toList
            then ["https://x.com/docs/a".toList] else [])
          ("https://x.com".toList) 3 :=
  ⟨(docfilter_sound 3 (fun _ l => l)
      (fun u => if u = "https://x.com".toList
        then ["https://x.com/docs/a".toList] else [])
      ("https://x.com".toList) 3).1 ("https://x.com/docs/a".toList)
      (by decide),
   (docfilter_sound 3 (fun _ l => l)
      (fun u => if u = "https://x.com".toList
        then ["https://x.com/docs/a".toList] else [])
      ("https://x.com".toList) 3).2 ("https://x.com".toList, 1) (by decide)
      ("https://x.com/docs/a".toList) (by decide) (by decide) (by decide)⟩

/-- Counterexample to C1 as stated: the seed URL `"https://x.com/docs"`
matches the filter, yet an extraction in which no page links back to the
seed returns a documentation set not containing it — the worker doc-checks
only links extracted from pages, never the seed itself. -/
theorem docfilter_seed_not_checked :
    hasDoc ("https://x.com/docs".toList) = true ∧
      ("https://x.com/docs".toList) ∉
        extract_doc_urls 3 (fun _ l => l) (fun _ => [])
          ("https://x.com/docs".toList) 3 := by
  decide

/-- Claim C4 (amended): for every `max_depth ≥ 1`, no job processed by a
frontier worker has depth greater than `max_depth`.  For `max_depth = 0`
the bound fails: the seed is enqueued at depth 1 and processed regardless
(see the counterexample). -/
theorem depth_bound_processed (max_depth : Nat) (norm : Url → Url → Url)
    (links_of : Url → List Url) (base_url : Url) (fuel : Nat)
    (hmd : 1 ≤ max_depth) :
    ∀ j ∈ (runCrawl max_depth norm links_of fuel
        (initState base_url)).processed, j.2 ≤ max_depth := by
  intro j hj
  have h := (runCrawl_inv max_depth norm links_of fuel (initState base_url)
    (Inv_init max_depth base_url)).2.2.2.1 j hj
  omega

/-- Witness for the amended C4: with `max_depth = 1` the seed job, processed
at depth 1, respects the bound. -/
theorem depth_bound_processed_witness :
    ((['s'] : Url), 1).2 ≤ 1 :=
  depth_bound_processed 1 (fun _ l => l) (fun _ => []) ['s'] 2 (by decide)
    ((['s'] : Url), 1) (by decide)

/-- Counterexample to C4 as stated: with `max_depth = 0` the seed job is
still processed at depth 1 > 0 — the depth guard only gates enqueueing of
children, not processing of the seed. -/
theorem depth_bound_fails_at_zero :
    ((['s'] : Url), 1) ∈
      (runCrawl 0 (fun _ l => l) (fun _ => []) 2
        (initState ['s'])).processed ∧ (0 : Nat) < 1 := by
  decide

/-- Claim C5 (amended): throughout every extraction, `visited ⊆ queued`
holds and every URL enters the queue at most once (the enqueue history has
no duplicates).  The third conjunct of the claim, `docUrls ⊆ queued`,
fails: a doc-matching link discovered at the maximum depth joins
`doc_urls` without ever being queued (see the counterexample). -/
theorem frontier_queue_invariants (max_depth : Nat)
    (norm : Url → Url → Url) (links_of : Url → List Url) (base_url : Url)
    (fuel : Nat) :
    (∀ u ∈ (runCrawl max_depth norm links_of fuel
        (initState base_url)).visited_urls,
      u ∈ (runCrawl max_depth norm links_of fuel
        (initState base_url)).queued_urls) ∧
    ((runCrawl max_depth norm links_of fuel
        (initState base_url)).enqueued_history).Nodup := by
  have h := runCrawl_inv max_depth norm links_of fuel (initState base_url)
    (Inv_init max_depth base_url)
  exact ⟨h.2.1, h.2.2.2.2.1⟩

/-- Witness for the amended C5 on a concrete two-step run: the visited seed
is in the queued set and the enqueue history has no duplicates. -/
theorem frontier_queue_invariants_witness :
    (['s'] : Url) ∈
      (runCrawl 1 (fun _ l => l)
        (fun u => if u = ['s'] then [['d', 'o', 'c', 's']] else []) 2
        (initState ['s'])).queued_urls ∧
    ((runCrawl 1 (fun _ l => l)
        (fun u => if u = ['s'] then [['d', 'o', 'c', 's']] else []) 2
        (initState ['s'])).enqueued_history).Nodup :=
  ⟨(frontier_queue_invariants 1 (fun _ l => l)
      (fun u => if u = ['s'] then [['d', 'o', 'c', 's']] else []) ['s']
      2).1 ['s'] (by decide),
   (frontier_queue_invariants 1 (fun _ l => l)
      (fun u => if u = ['s'] then [['d', 'o', 'c', 's']] else []) ['s']
      2).2⟩

/-- Counterexample to C5 as stated: with `max_depth = 1`, a seed whose page
links to `"docs"` puts `"docs"` into the doc set (the filter check is
unconditional) but never into the queued set (the enqueue is depth-guarded),
so `docUrls ⊆ queued` fails. -/
theorem docUrls_not_subset_queued :
    (['d', 'o', 'c', 's'] : Url) ∈
      (runCrawl 1 (fun _ l => l)
        (fun u => if u = ['s'] then [['d', 'o', 'c', 's']] else []) 2
        (initState ['s'])).doc_urls ∧
    (['d', 'o', 'c', 's'] : Url) ∉
      (runCrawl 1 (fun _ l => l)
        (fun u => if u = ['s'] then [['d', 'o', 'c', 's']] else []) 2
        (initState ['s'])).queued_urls := by
  decide

namespace SingleCrawler

/-- Content delivered by the external `crawl4ai` collaborator for one page
(the fields `SingleCrawler.crawl_async` reads off its result object). -/
structure PageContent where
  markdown : List Char
  cleaned_html : List Char
  extracted_content : List Char

/-- Embedding of the per-URL result dictionary built by
`SingleCrawler.crawl_async` (src/crawler/crawler.py lines 56-65): success
records carry the three content fields, failure records carry only the
error message (absent dictionary keys are `none`). -/
structure FetchResult where
  url : List Char
  success : Bool
  markdown : Option (List Char)
  cleaned_html : Option (List Char)
  extracted_content : Option (List Char)
  error : Option (List Char)
deriving DecidableEq

/-- Embedding of `SingleCrawler.crawl_async` (src/crawler/crawler.py lines
36-65): the external fetch (`fetch` is the denotation of the
`AsyncWebCrawler` call, an exception surfacing as `Except.error`) is run
inside a try/except; an exception is converted to a failure record with the
message, never propagated. -/
def crawl_async (fetch : List Char → Except (List Char) PageContent)
    (url : List Char) : FetchResult :=
  match fetch url with
  | Except.ok result =>
    { url := url, success := true, markdown := some result.markdown,
      cleaned_html := some result.cleaned_html,
      extracted_content := some result.extracted_content, error := none }
  | Except.error e =>
    { url := url, success := false, markdown := none, cleaned_html := none,
      extracted_content := none, error := some e }

/-- Embedding of `SingleCrawler.crawl_process` (src/crawler/crawler.py
lines 14-33): the per-process wrapper only adds logging and timing around
`crawl_async`. -/
def crawl_process (fetch : List Char → Except (List Char) PageContent)
    (url : List Char) : FetchResult :=
  crawl_async fetch url

theorem crawl_process_url (fetch : List Char → Except (List Char)
    PageContent) (u : List Char) : (crawl_process fetch u).url = u := by
  rw [crawl_process, crawl_async]
  rcases hfe : fetch u with e | pc
  · rfl
  · rfl

end SingleCrawler

namespace ParallelCrawler

/-- Observable outcome of one `ParallelCrawler.crawl` call: the result list
and the number of worker processes handed to `multiprocessing.Pool`. -/
structure CrawlRun where
  results : List SingleCrawler.FetchResult
  processes_spawned : Nat

/-- Embedding of `ParallelCrawler.crawl` (src/crawler/crawler.py lines
80-116): an empty URL list returns early with no pool; otherwise the
requested worker count (defaulting to `cpu_count`) is capped at the number
of URLs and `pool.map` — an order-preserving map — fetches every URL. -/
def crawl (fetch : List Char → Except (List Char) SingleCrawler.PageContent)
    (max_processes : Option Nat) (cpu_count : Nat)
    (urls : List (List Char)) : CrawlRun :=
  if urls = [] then { results := [], processes_spawned := 0 }
  else
    let mp := match max_processes with
      | none => cpu_count
      | some r => r
    let mp2 := min mp urls.length
    { results := urls.map (SingleCrawler.crawl_process fetch),
      processes_spawned := mp2 }

theorem crawl_results (fetch : List Char → Except (List Char)
    SingleCrawler.PageContent) (max_processes : Option Nat)
    (cpu_count : Nat) (urls : List (List Char)) :
    (crawl fetch max_processes cpu_count urls).results =
      urls.map (SingleCrawler.crawl_process fetch) := by
  rw [crawl.eq_def]
  by_cases h : urls = []
  · rw [if_pos h, h]
    rfl
  · rw [if_neg h]

end ParallelCrawler

/-- Claim C6: the fetch stage returns exactly one result per input URL for
every fetch behaviour (the batch is total — it never aborts), and each
result reflects its own URL's outcome: a fetch exception is absorbed into a
`success = false` record carrying the error message, a successful fetch
into a `success = true` record with no error. -/
theorem fetch_partial_failure_tolerance
    (fetch : List Char → Except (List Char) SingleCrawler.PageContent)
    (max_processes : Option Nat) (cpu_count : Nat)
    (urls : List (List Char)) :
    (ParallelCrawler.crawl fetch max_processes cpu_count
      urls).results.length = urls.length ∧
    ∀ r ∈ (ParallelCrawler.crawl fetch max_processes cpu_count
        urls).results,
      match fetch r.url with
      | Except.ok _ => r.success = true ∧ r.error = none
      | Except.error e => r.success = false ∧ r.error = some e := by
  constructor
  · rw [ParallelCrawler.crawl_results, List.length_map]
  · intro r hr
    rw [ParallelCrawler.crawl_results] at hr
    obtain ⟨u, hu, rfl⟩ := List.mem_map.mp hr
    rw [SingleCrawler.crawl_process_url]
    rcases hfe : fetch u with e | pc
    · show (SingleCrawler.crawl_process fetch u).success = false ∧
        (SingleCrawler.crawl_process fetch u).error = some e
      rw [SingleCrawler.crawl_process, SingleCrawler.crawl_async, hfe]
      exact ⟨rfl, rfl⟩
    · show (SingleCrawler.crawl_process fetch u).success = true ∧
        (SingleCrawler.crawl_process fetch u).error = none
      rw [SingleCrawler.crawl_process, SingleCrawler.crawl_async, hfe]
      exact ⟨rfl, rfl⟩

/-- Fetch behaviour for the C6 and C10 witnesses: the second URL raises,
the others succeed. -/
def fetch3 : List Char → Except (List Char) SingleCrawler.PageContent :=
  fun u => if u = "b".toList then Except.error ("boom".toList)
    else Except.ok ⟨"md".toList, [], []⟩

/-- URL list for the C6 and C10 witnesses. -/
def urls3 : List (List Char) := ["a".toList, "b".toList, "c".toList]

/-- Witness for C6 at the spec's example shape: 3 URLs with the second
raising yield 3 results, and the second result is the failure record with
the error message. -/
theorem fetch_partial_failure_tolerance_witness :
    (ParallelCrawler.crawl fetch3 none 4 urls3).results.length = 3 ∧
      (SingleCrawler.crawl_process fetch3 ("b".toList)).success = false := by
  constructor
  · exact ((fetch_partial_failure_tolerance fetch3 none 4 urls3).1).trans
      (by decide)
  · have h := (fetch_partial_failure_tolerance fetch3 none 4 urls3).2
      (SingleCrawler.crawl_process fetch3 ("b".toList)) (by decide)
    rw [show (SingleCrawler.crawl_process fetch3 ("b".toList)).url =
      "b".toList from SingleCrawler.crawl_process_url fetch3 _] at h
    rw [show fetch3 ("b".toList) = Except.error ("boom".toList) from rfl]
      at h
    exact h.1

/-- Claim C7 (amended): zero URLs returns an empty result list with no
worker processes; for a non-empty URL list the pool size is
`min(requested, len(urls))`, where `requested` defaults to the host's core
count when not given.  The core count caps the pool only through that
default — an explicit request larger than the core count is not clamped to
it (see the counterexample). -/
theorem worker_count_formula
    (fetch : List Char → Except (List Char) SingleCrawler.PageContent)
    (max_processes : Option Nat) (cpu_count : Nat)
    (urls : List (List Char)) :
    (urls = [] →
      (ParallelCrawler.crawl fetch max_processes cpu_count urls).results =
        [] ∧
      (ParallelCrawler.crawl fetch max_processes cpu_count
        urls).processes_spawned = 0) ∧
    (urls ≠ [] →
      (ParallelCrawler.crawl fetch max_processes cpu_count
        urls).processes_spawned =
        min (max_processes.getD cpu_count) urls.length) := by
  constructor
  · intro h
    rw [ParallelCrawler.crawl.eq_def, if_pos h]
    exact ⟨rfl, rfl⟩
  · intro h
    rw [ParallelCrawler.crawl.eq_def, if_neg h]
    rcases max_processes with _ | r
    · rfl
    · rfl

/-- Witness for the amended C7: an explicit request of 100 workers on an
8-core host with 50 URLs spawns `min 100 50` processes. -/
theorem worker_count_formula_witness :
    (ParallelCrawler.crawl fetch3 (some 100) 8
      (List.replicate 50 ['a'])).processes_spawned =
      min ((some 100).getD 8) (List.replicate 50 ['a']).length :=
  (worker_count_formula fetch3 (some 100) 8 (List.replicate 50 ['a'])).2
    (by decide)

/-- Counterexample to C7 as stated: requesting 100 workers on an 8-core
host for 50 URLs spawns 50 processes, not the `min(requested, coreCount,
len(urls)) = 8` the claim specifies — the code caps only at the URL count,
never at the core count, when a request is given explicitly. -/
theorem worker_count_exceeds_cores :
    (ParallelCrawler.crawl fetch3 (some 100) 8
      (List.replicate 50 ['a'])).processes_spawned = 50 ∧
      Nat.min 100 (Nat.min 8 50) = 8 ∧ (50 : Nat) ≠ 8 := by
  decide

/-- Claim C10: the fetch stage preserves input order — it returns as many
results as inputs and the i-th result's `url` field is the i-th input URL
(`pool.map` is an order-preserving parallel map). -/
theorem fetch_preserves_order
    (fetch : List Char → Except (List Char) SingleCrawler.PageContent)
    (max_processes : Option Nat) (cpu_count : Nat)
    (urls : List (List Char)) :
    (ParallelCrawler.crawl fetch max_processes cpu_count
      urls).results.length = urls.length ∧
    ∀ (i : Nat) (h : i < urls.length)
      (h2 : i < (ParallelCrawler.crawl fetch max_processes cpu_count
        urls).results.length),
      ((ParallelCrawler.crawl fetch max_processes cpu_count
        urls).results.get ⟨i, h2⟩).url = urls.get ⟨i, h⟩ := by
  constructor
  · rw [ParallelCrawler.crawl_results, List.length_map]
  · intro i h h2
    have hget : (ParallelCrawler.crawl fetch max_processes cpu_count
        urls).results.get ⟨i, h2⟩ =
        SingleCrawler.crawl_process fetch (urls.get ⟨i, h⟩) := by
      rw [List.get_of_eq (ParallelCrawler.crawl_results fetch max_processes
        cpu_count urls), List.get_map]
    rw [hget, SingleCrawler.crawl_process_url]

/-- Witness for C10: on the three-URL batch with a failing middle URL, the
second result's url is still the second input. -/
theorem fetch_preserves_order_witness :
    ((ParallelCrawler.crawl fetch3 none 4 urls3).results.get
      ⟨1, by decide⟩).url = urls3.get ⟨1, by decide⟩ :=
  (fetch_preserves_order fetch3 none 4 urls3).2 1 (by decide) (by decide)
